import Mathlib

/-! The class `BoundedBuffer` of `BoundedBuffer.h`.

A shallow embedding of the class `BoundedBuffer`: a queue of byte vectors
(`queue<vector<char>> q`) with an `int` capacity `cap`, whose `push` waits on
`q.size() < cap` and whose `pop` waits on `q.size() > 0`.

* A method call made in a given state has an `Outcome`: it completes
  (`done`), it does not get past its `wait` in that state (`blocked`), or it
  leaves defined behaviour (`undefined`: an invalid iterator range, a copy
  past the end of the destination object).  No method of the class reports an
  error; `failed` is there so that statements about error results can be
  written down.
* `size_t` is `w` bits wide (`w` is a parameter); `int` is 32 bits wide.
-/

/-- One `char`: an 8-bit byte, any value allowed. -/
abbrev CChar := Fin 256

/-- The conversion of an `int` to a `w`-bit `size_t` (value modulo `2^w`), as
applied to `cap` by the comparison `q.size() < cap`. -/
def toSizeT (w : Nat) (x : Int) : Nat := (x % (2 : Int) ^ w).toNat

/-- The conversion of a `size_t` value to the 32-bit `int` returned by `pop`
(`return popped.size();`). -/
def toInt (n : Nat) : Int := ((n : Int) + 2 ^ 31) % 2 ^ 32 - 2 ^ 31

/-- The error kinds named by the specification. The class raises none of them. -/
inductive BufferError where
  | InvalidArgument
  | BufferTooSmall
  deriving DecidableEq, Repr

/-- What a call does in a given state. -/
inductive Outcome (α : Type) where
  | done (a : α)
  | blocked
  | undefined
  | failed (e : BufferError)
  deriving DecidableEq, Repr

/-- The data members of the class (the mutex and the condition variables
carry no data). -/
structure BoundedBuffer where
  cap : Int
  q : List (List CChar)
  deriving DecidableEq, Repr

/-- The constructor `BoundedBuffer(int _cap) { cap = _cap; }`: `q` is
default-constructed, hence empty. -/
def BoundedBuffer.ctor (_cap : Int) : BoundedBuffer :=
  { cap := _cap, q := [] }

/-- The outcome of a constructor call: the body has no `throw` and no check. -/
def construct (_cap : Int) : Outcome BoundedBuffer :=
  .done (BoundedBuffer.ctor _cap)

/-- The method `bool is_empty() { return q.empty(); }`: its result, and the
object after the call. -/
def BoundedBuffer.is_empty (s : BoundedBuffer) : Bool × BoundedBuffer :=
  (s.q.isEmpty, s)

/-- The predicate of `full.wait`: `q.size() < cap`, an unsigned comparison
after `cap` is converted to `size_t`. -/
def BoundedBuffer.pushGuard (w : Nat) (s : BoundedBuffer) : Bool :=
  decide (s.q.length < toSizeT w s.cap)

/-- The predicate of `empty.wait`: `q.size() > 0`. -/
def BoundedBuffer.popGuard (s : BoundedBuffer) : Bool :=
  decide (s.q.length > 0)

/-- The range construction `vector<char> vect(data, data + len)`: the first `len` bytes of the object
`data` points to; defined only for `0 ≤ len ≤` the extent of that object. -/
def mkVect (data : List CChar) (len : Int) : Option (List CChar) :=
  if 0 ≤ len ∧ len ≤ (data.length : Int) then some (data.take len.toNat) else none

/-- The call `memcpy(dst, src, n)` on the object `dst` points to: defined only when
`n` bytes fit in it. -/
def memcpy (dst src : List CChar) (n : Nat) : Option (List CChar) :=
  if n ≤ dst.length ∧ n ≤ src.length then some (src.take n ++ dst.drop n) else none

/-- The method `void push(char* data, int len)`: wait for the guard, build
the vector, append it to the queue. -/
def BoundedBuffer.push (w : Nat) (s : BoundedBuffer) (data : List CChar) (len : Int) :
    Outcome BoundedBuffer :=
  if s.pushGuard w then
    match mkVect data len with
    | some vect => .done { s with q := s.q ++ [vect] }
    | none => .undefined
  else .blocked

/-- The method `int pop(char* buf, int bufcap)`: the returned `int`, the object `buf`
points to after the call, and the buffer. `bufcap` is not read by the body. -/
def BoundedBuffer.pop (s : BoundedBuffer) (buf : List CChar) (_bufcap : Int) :
    Outcome (Int × List CChar × BoundedBuffer) :=
  if s.popGuard then
    let popped := s.q.headD []
    let s1 := { s with q := s.q.tail }
    match memcpy buf popped popped.length with
    | some buf1 => .done (toInt popped.length, buf1, s1)
    | none => .undefined
  else .blocked

/-! ## Histories of calls -/

/-- A call of one of the three public methods, with its arguments. -/
inductive Op where
  | push (data : List CChar) (len : Int)
  | pop (buf : List CChar) (bufcap : Int)
  | is_empty
  deriving DecidableEq, Repr

/-- What a completed call hands back to its caller. -/
inductive Obs where
  | pushed
  | popped (ret : Int) (buf : List CChar)
  | emptiness (b : Bool)
  deriving DecidableEq, Repr

/-- Whether a value fits the 32-bit `int` type of `len` and `bufcap`. -/
def isInt (x : Int) : Bool := decide (-(2 : Int) ^ 31 ≤ x ∧ x < (2 : Int) ^ 31)

/-- Whether the `int` arguments of a call are values of type `int`. -/
def Op.typed : Op → Bool
  | .push _ len => isInt len
  | .pop _ bufcap => isInt bufcap
  | .is_empty => true

/-- One call made on the buffer in state `s`. -/
def BoundedBuffer.call (w : Nat) (s : BoundedBuffer) : Op → Outcome (Obs × BoundedBuffer)
  | .push data len =>
    match s.push w data len with
    | .done s1 => .done (.pushed, s1)
    | .blocked => .blocked
    | .undefined => .undefined
    | .failed e => .failed e
  | .pop buf bufcap =>
    match s.pop buf bufcap with
    | .done (ret, buf1, s1) => .done (.popped ret buf1, s1)
    | .blocked => .blocked
    | .undefined => .undefined
    | .failed e => .failed e
  | .is_empty => .done (.emptiness s.is_empty.1, s.is_empty.2)

/-- A history of completed calls: each call is made in the state the previous
one left and completes there. For `push` and `pop` these are the histories
the mutex `m` allows, each body running as one step. `none` when some call of
the list does not complete in the state it meets. -/
def BoundedBuffer.run (w : Nat) : BoundedBuffer → List Op → Option (List Obs × BoundedBuffer)
  | s, [] => some ([], s)
  | s, op :: ops =>
    match s.call w op with
    | .done (o, s1) =>
      match BoundedBuffer.run w s1 ops with
      | some (os, s2) => some (o :: os, s2)
      | none => none
    | _ => none

/-- The vectors built by the `push` calls of a history, in call order. -/
def pushedMsgs : List Op → List (List CChar)
  | [] => []
  | .push data len :: ops => (mkVect data len).toList ++ pushedMsgs ops
  | _ :: ops => pushedMsgs ops

/-- The messages handed back by the `pop` calls of a history, in call order:
the first `ret` bytes of the destination. -/
def poppedMsgs : List Obs → List (List CChar)
  | [] => []
  | .popped ret buf :: os => buf.take ret.toNat :: poppedMsgs os
  | _ :: os => poppedMsgs os

/-- Whether a call is a `pop`. -/
def Op.isPop : Op → Bool
  | .pop _ _ => true
  | _ => false

/-- Whether a call is a `push`. -/
def Op.isPush : Op → Bool
  | .push _ _ => true
  | _ => false

/-! ## Threads and the mutex

The bodies of the three methods as sequences of the statements that touch the
mutex `m` or the queue `q`, run by threads that interleave statement by
statement. Building `vect` and the `memcpy` out of `popped` work on data local
to the calling thread and are part of `qPush` and `qPop`. -/

/-- A statement of a method body. -/
inductive Stmt where
  /-- The declaration `unique_lock<mutex> ul(m);`. -/
  | lock
  /-- The wait `full.wait(ul, [this] {return (q.size() < cap);});`. -/
  | waitFull
  /-- The wait `empty.wait(ul, [this] {return (q.size() > 0);});`. -/
  | waitEmpty
  /-- The append `q.push(vect);`. -/
  | qPush (vect : List CChar)
  /-- The removal `popped = q.front(); q.pop();`. -/
  | qPop
  /-- A `notify_one()` on either condition variable. -/
  | notify
  /-- The release `ul.unlock();`. -/
  | unlock
  /-- The read `return q.empty();`. -/
  | qEmpty
  deriving DecidableEq, Repr

/-- Whether a statement reads or writes `q`. -/
def Stmt.accessesQ : Stmt → Bool
  | .waitFull => true
  | .waitEmpty => true
  | .qPush _ => true
  | .qPop => true
  | .qEmpty => true
  | _ => false

/-- The body of `push`, once `vect` is known. -/
def pushBody (vect : List CChar) : List Stmt :=
  [.lock, .waitFull, .qPush vect, .notify, .unlock]

/-- The body of `pop`. -/
def popBody : List Stmt :=
  [.lock, .waitEmpty, .qPop, .notify, .unlock]

/-- The body of `is_empty`. -/
def isEmptyBody : List Stmt :=
  [.qEmpty]

/-- The buffer shared by the threads, the thread that holds `m` (if any), and
what each thread has left to run. -/
structure Sys where
  buf : BoundedBuffer
  owner : Option Nat
  threads : List (List Stmt)
  deriving DecidableEq, Repr

/-- Thread `t` runs its next statement. `none` when it cannot: the thread has
finished, `lock` finds `m` taken, or a `wait` or `unlock` is reached without
`m`. A `wait` whose predicate is false releases `m` and leaves the thread to
take `m` again and re-check. -/
def Sys.step (w : Nat) (t : Nat) (σ : Sys) : Option Sys :=
  match σ.threads[t]? with
  | some (st :: rest) =>
    match st with
    | .lock =>
      if σ.owner = none then some { σ with owner := some t, threads := σ.threads.set t rest }
      else none
    | .waitFull =>
      if σ.owner = some t then
        if σ.buf.pushGuard w then some { σ with threads := σ.threads.set t rest }
        else some { σ with owner := none, threads := σ.threads.set t (.lock :: .waitFull :: rest) }
      else none
    | .waitEmpty =>
      if σ.owner = some t then
        if σ.buf.popGuard then some { σ with threads := σ.threads.set t rest }
        else some { σ with owner := none, threads := σ.threads.set t (.lock :: .waitEmpty :: rest) }
      else none
    | .qPush vect =>
      some { σ with buf := { σ.buf with q := σ.buf.q ++ [vect] }, threads := σ.threads.set t rest }
    | .qPop =>
      some { σ with buf := { σ.buf with q := σ.buf.q.tail }, threads := σ.threads.set t rest }
    | .notify => some { σ with threads := σ.threads.set t rest }
    | .unlock =>
      if σ.owner = some t then some { σ with owner := none, threads := σ.threads.set t rest }
      else none
    | .qEmpty => some { σ with threads := σ.threads.set t rest }
  | _ => none

/-- The threads run one statement at a time in the order of the schedule. -/
def Sys.exec (w : Nat) : List Nat → Sys → Option Sys
  | [], σ => some σ
  | t :: sched, σ =>
    match σ.step w t with
    | some σ1 => Sys.exec w sched σ1
    | none => none

/-- Whether the next statement of thread `t` reads or writes `q`. -/
def Sys.accessing (σ : Sys) (t : Nat) : Bool :=
  match σ.threads[t]? with
  | some (st :: _) => st.accessesQ
  | _ => false

/-- Whether a body keeps `q` under the mutex: started with `m` held or not
(`held`), every statement that accesses `q`, every `wait` and every `unlock`
is reached with `m` held, and `lock` is reached without it. -/
def lockDiscipline : Bool → List Stmt → Bool
  | _, [] => true
  | held, .lock :: rest => !held && lockDiscipline true rest
  | held, .unlock :: rest => held && lockDiscipline false rest
  | held, .notify :: rest => lockDiscipline held rest
  | held, .qEmpty :: rest => held && lockDiscipline held rest
  | held, .waitFull :: rest => held && lockDiscipline held rest
  | held, .waitEmpty :: rest => held && lockDiscipline held rest
  | held, .qPush _ :: rest => held && lockDiscipline held rest
  | held, .qPop :: rest => held && lockDiscipline held rest

/-- The lock invariant of a system: what each thread has left to run keeps the
lock discipline, started from whether that thread holds `m` now. -/
def Sys.Inv (σ : Sys) : Prop :=
  ∀ u prog, σ.threads[u]? = some prog → lockDiscipline (decide (σ.owner = some u)) prog = true

/-! ## Basic facts about the conversions and the three methods -/

theorem toSizeT_le_self (w : Nat) (x : Int) (hx : 0 ≤ x) : (toSizeT w x : Int) ≤ x := by
  unfold toSizeT
  have hp : (0 : Int) < (2 : Int) ^ w := by positivity
  have h0 : 0 ≤ x % (2 : Int) ^ w := Int.emod_nonneg _ (ne_of_gt hp)
  rw [Int.toNat_of_nonneg h0]
  by_cases hlt : x < (2 : Int) ^ w
  · rw [Int.emod_eq_of_lt hx hlt]
  · have := Int.emod_lt_of_pos x hp
    omega

theorem toSizeT_eq_self (w : Nat) (x : Int) (hx : 0 ≤ x) (hw : x < (2 : Int) ^ w) :
    (toSizeT w x : Int) = x := by
  unfold toSizeT
  rw [Int.emod_eq_of_lt hx hw, Int.toNat_of_nonneg hx]

theorem toSizeT_zero (w : Nat) : toSizeT w 0 = 0 := by
  simp [toSizeT]

theorem toSizeT_neg (w : Nat) (x : Int) (hx : x < 0) (hw : -(2 : Int) ^ w ≤ x) :
    (toSizeT w x : Int) = (2 : Int) ^ w + x := by
  unfold toSizeT
  have hp : (0 : Int) < (2 : Int) ^ w := by positivity
  have h0 : 0 ≤ x % (2 : Int) ^ w := Int.emod_nonneg _ (ne_of_gt hp)
  rw [Int.toNat_of_nonneg h0]
  have h1 : (x + (2 : Int) ^ w) % (2 : Int) ^ w = x + (2 : Int) ^ w :=
    Int.emod_eq_of_lt (by omega) (by omega)
  rw [Int.add_emod_self] at h1
  omega

theorem toInt_eq_self (n : Nat) (hn : (n : Int) < 2 ^ 31) : toInt n = n := by
  unfold toInt
  omega

theorem mkVect_self (data : List CChar) : mkVect data data.length = some data := by
  simp [mkVect]

theorem mkVect_length (data : List CChar) (len : Int) (v : List CChar)
    (h : mkVect data len = some v) : (v.length : Int) = len := by
  unfold mkVect at h
  split at h
  · rename_i hr
    simp only [Option.some.injEq] at h
    subst h
    rw [List.length_take]
    omega
  · simp at h

theorem push_done_iff (w : Nat) (s s1 : BoundedBuffer) (data : List CChar) (len : Int) :
    s.push w data len = .done s1 ↔
      s.pushGuard w = true ∧ ∃ v, mkVect data len = some v ∧ s1 = { s with q := s.q ++ [v] } := by
  unfold BoundedBuffer.push
  cases hg : s.pushGuard w <;> cases hv : mkVect data len <;> simp [eq_comm]

theorem push_blocked_iff (w : Nat) (s : BoundedBuffer) (data : List CChar) (len : Int) :
    s.push w data len = .blocked ↔ s.pushGuard w = false := by
  unfold BoundedBuffer.push
  cases hg : s.pushGuard w <;> cases hv : mkVect data len <;> simp

theorem pop_cons (cap : Int) (m : List CChar) (rest : List (List CChar)) (buf : List CChar)
    (bufcap : Int) (hfit : m.length ≤ buf.length) :
    (BoundedBuffer.mk cap (m :: rest)).pop buf bufcap =
      .done (toInt m.length, m ++ buf.drop m.length, ⟨cap, rest⟩) := by
  simp [BoundedBuffer.pop, BoundedBuffer.popGuard, memcpy, hfit]

theorem pop_done_iff (s s1 : BoundedBuffer) (buf buf1 : List CChar) (bufcap ret : Int) :
    s.pop buf bufcap = .done (ret, buf1, s1) ↔
      ∃ m rest, s.q = m :: rest ∧ m.length ≤ buf.length ∧ ret = toInt m.length ∧
        buf1 = m ++ buf.drop m.length ∧ s1 = { s with q := rest } := by
  obtain ⟨cap, q⟩ := s
  cases q with
  | nil => simp [BoundedBuffer.pop, BoundedBuffer.popGuard]
  | cons m rest =>
    by_cases hfit : m.length ≤ buf.length
    · rw [pop_cons cap m rest buf bufcap hfit]
      simp only [Outcome.done.injEq, Prod.mk.injEq, List.cons.injEq]
      constructor
      · rintro ⟨h1, h2, h3⟩
        exact ⟨m, rest, ⟨rfl, rfl⟩, hfit, h1.symm, h2.symm, h3.symm⟩
      · rintro ⟨m1, rest1, ⟨h1, h2⟩, -, h3, h4, h5⟩
        subst h1 h2
        exact ⟨h3.symm, h4.symm, h5.symm⟩
    · constructor
      · intro h
        simp [BoundedBuffer.pop, BoundedBuffer.popGuard, memcpy, hfit] at h
      · rintro ⟨m1, rest1, h1, h2, -⟩
        simp only [List.cons.injEq] at h1
        obtain ⟨h1, -⟩ := h1
        subst h1
        exact absurd h2 hfit

theorem pop_blocked_iff (s : BoundedBuffer) (buf : List CChar) (bufcap : Int) :
    s.pop buf bufcap = .blocked ↔ s.q = [] := by
  obtain ⟨cap, q⟩ := s
  cases q with
  | nil => simp [BoundedBuffer.pop, BoundedBuffer.popGuard]
  | cons m rest =>
    by_cases hfit : m.length ≤ buf.length
    · rw [pop_cons cap m rest buf bufcap hfit]
      simp
    · simp [BoundedBuffer.pop, BoundedBuffer.popGuard, memcpy, hfit]

/-- What a completed call did to the buffer, case by case. -/
theorem call_done_cases (w : Nat) (s s1 : BoundedBuffer) (op : Op) (o : Obs)
    (h : s.call w op = .done (o, s1)) :
    (∃ data len v, op = .push data len ∧ o = .pushed ∧ s.pushGuard w = true ∧
        mkVect data len = some v ∧ s1 = { s with q := s.q ++ [v] }) ∨
    (∃ buf bufcap m rest, op = .pop buf bufcap ∧ s.q = m :: rest ∧ m.length ≤ buf.length ∧
        o = .popped (toInt m.length) (m ++ buf.drop m.length) ∧ s1 = { s with q := rest }) ∨
    (op = .is_empty ∧ o = .emptiness s.q.isEmpty ∧ s1 = s) := by
  cases op with
  | push data len =>
    left
    simp only [BoundedBuffer.call] at h
    cases hp : s.push w data len with
    | done s2 =>
      rw [hp] at h
      simp only [Outcome.done.injEq, Prod.mk.injEq] at h
      obtain ⟨hg, v, hv, hs⟩ := (push_done_iff w s s2 data len).1 hp
      exact ⟨data, len, v, rfl, h.1.symm, hg, hv, h.2 ▸ hs⟩
    | blocked => rw [hp] at h; simp at h
    | undefined => rw [hp] at h; simp at h
    | failed e => rw [hp] at h; simp at h
  | pop buf bufcap =>
    right; left
    simp only [BoundedBuffer.call] at h
    cases hp : s.pop buf bufcap with
    | done r =>
      obtain ⟨ret, buf1, s2⟩ := r
      rw [hp] at h
      simp only [Outcome.done.injEq, Prod.mk.injEq] at h
      obtain ⟨m, rest, hq, hfit, hret, hbuf, hs⟩ := (pop_done_iff s s2 buf buf1 bufcap ret).1 hp
      refine ⟨buf, bufcap, m, rest, rfl, hq, hfit, ?_, h.2 ▸ hs⟩
      rw [← h.1, hret, hbuf]
    | blocked => rw [hp] at h; simp at h
    | undefined => rw [hp] at h; simp at h
    | failed e => rw [hp] at h; simp at h
  | is_empty =>
    right; right
    simp only [BoundedBuffer.call, BoundedBuffer.is_empty, Outcome.done.injEq,
      Prod.mk.injEq] at h
    exact ⟨rfl, h.1.symm, h.2.symm⟩

theorem run_nil (w : Nat) (s : BoundedBuffer) : s.run w [] = some ([], s) := rfl

theorem run_cons_some (w : Nat) (s s2 : BoundedBuffer) (op : Op) (ops : List Op)
    (obs : List Obs) (h : s.run w (op :: ops) = some (obs, s2)) :
    ∃ o s1 os, s.call w op = .done (o, s1) ∧ s1.run w ops = some (os, s2) ∧ obs = o :: os := by
  unfold BoundedBuffer.run at h
  cases hc : s.call w op with
  | done r =>
    obtain ⟨o, s1⟩ := r
    rw [hc] at h
    simp only at h
    cases hr : BoundedBuffer.run w s1 ops with
    | none => rw [hr] at h; simp at h
    | some r2 =>
      obtain ⟨os, s3⟩ := r2
      rw [hr] at h
      simp only [Option.some.injEq, Prod.mk.injEq] at h
      obtain ⟨h1, h2⟩ := h
      subst h1 h2
      exact ⟨o, s1, os, rfl, hr, rfl⟩
  | blocked => rw [hc] at h; simp at h
  | undefined => rw [hc] at h; simp at h
  | failed e => rw [hc] at h; simp at h

theorem run_cons_of (w : Nat) (s s1 s2 : BoundedBuffer) (op : Op) (ops : List Op) (o : Obs)
    (os : List Obs) (hc : s.call w op = .done (o, s1)) (hr : s1.run w ops = some (os, s2)) :
    s.run w (op :: ops) = some (o :: os, s2) := by
  rw [BoundedBuffer.run, hc]
  simp only
  rw [hr]

theorem run_append_of (w : Nat) (s s1 s2 : BoundedBuffer) (a b : List Op) (oa ob : List Obs)
    (ha : s.run w a = some (oa, s1)) (hb : s1.run w b = some (ob, s2)) :
    s.run w (a ++ b) = some (oa ++ ob, s2) := by
  induction a generalizing s oa with
  | nil =>
    simp only [run_nil, Option.some.injEq, Prod.mk.injEq] at ha
    obtain ⟨h1, h2⟩ := ha
    subst h1 h2
    simpa using hb
  | cons op ops ih =>
    obtain ⟨o, s3, os, hc, hr, ho⟩ := run_cons_some w s s1 op ops oa ha
    subst ho
    exact run_cons_of w s s3 s2 op (ops ++ b) o (os ++ ob) hc (ih s3 os hr)

theorem run_append_some (w : Nat) (s s2 : BoundedBuffer) (a b : List Op) (obs : List Obs)
    (h : s.run w (a ++ b) = some (obs, s2)) :
    ∃ oa s1 ob, s.run w a = some (oa, s1) ∧ s1.run w b = some (ob, s2) ∧ obs = oa ++ ob := by
  induction a generalizing s obs with
  | nil => exact ⟨[], s, obs, rfl, by simpa using h, rfl⟩
  | cons op ops ih =>
    obtain ⟨o, s3, os, hc, hr, ho⟩ := run_cons_some w s s2 op (ops ++ b) obs h
    obtain ⟨oa, s1, ob, h1, h2, h3⟩ := ih s3 os hr
    exact ⟨o :: oa, s1, ob, run_cons_of w s s3 s1 op ops o oa hc h1, h2, by rw [ho, h3]; rfl⟩

/-! ## Invariants of histories -/

theorem call_preserves_bound (w : Nat) (s s1 : BoundedBuffer) (op : Op) (o : Obs)
    (h : s.call w op = .done (o, s1)) (hb : s.q.length ≤ toSizeT w s.cap) :
    s1.q.length ≤ toSizeT w s1.cap ∧ s1.cap = s.cap := by
  rcases call_done_cases w s s1 op o h with
    ⟨data, len, v, -, -, hg, -, hs⟩ | ⟨buf, bufcap, m, rest, -, hq, -, -, hs⟩ | ⟨-, -, hs⟩
  · subst hs
    simp only [BoundedBuffer.pushGuard, decide_eq_true_eq] at hg
    simp only [List.length_append, List.length_singleton, and_true]
    omega
  · subst hs
    rw [hq] at hb
    simp only [List.length_cons] at hb
    simp only [and_true]
    omega
  · subst hs
    exact ⟨hb, rfl⟩

theorem run_preserves_bound (w : Nat) (s s1 : BoundedBuffer) (ops : List Op) (obs : List Obs)
    (h : s.run w ops = some (obs, s1)) (hb : s.q.length ≤ toSizeT w s.cap) :
    s1.q.length ≤ toSizeT w s1.cap ∧ s1.cap = s.cap := by
  induction ops generalizing s obs with
  | nil =>
    simp only [run_nil, Option.some.injEq, Prod.mk.injEq] at h
    obtain ⟨-, h2⟩ := h
    subst h2
    exact ⟨hb, rfl⟩
  | cons op ops ih =>
    obtain ⟨o, s2, os, hc, hr, -⟩ := run_cons_some w s s1 op ops obs h
    obtain ⟨hb2, hcap2⟩ := call_preserves_bound w s s2 op o hc hb
    obtain ⟨hb1, hcap1⟩ := ih s2 os hr hb2
    exact ⟨hb1, hcap1.trans hcap2⟩

/-- A history that completes also completes when cut after any number of calls. -/
theorem run_take (w : Nat) (s s1 : BoundedBuffer) (ops : List Op) (obs : List Obs) (k : Nat)
    (h : s.run w ops = some (obs, s1)) :
    ∃ ok sk, s.run w (ops.take k) = some (ok, sk) := by
  have h2 : s.run w (ops.take k ++ ops.drop k) = some (obs, s1) := by
    rw [List.take_append_drop]; exact h
  obtain ⟨oa, sa, -, ha, -, -⟩ := run_append_some w s s1 _ _ obs h2
  exact ⟨oa, sa, ha⟩

theorem toInt_take (m rest : List CChar) (h : (m.length : Int) < 2 ^ 31) :
    (m ++ rest).take (toInt m.length).toNat = m := by
  rw [toInt_eq_self m.length h]
  simp

theorem run_conserves (w : Nat) (s s1 : BoundedBuffer) (ops : List Op) (obs : List Obs)
    (hq : ∀ m ∈ s.q, (m.length : Int) < 2 ^ 31)
    (ht : ∀ op ∈ ops, op.typed = true)
    (h : s.run w ops = some (obs, s1)) :
    poppedMsgs obs ++ s1.q = s.q ++ pushedMsgs ops := by
  induction ops generalizing s obs with
  | nil =>
    simp only [run_nil, Option.some.injEq, Prod.mk.injEq] at h
    obtain ⟨h1, h2⟩ := h
    subst h1 h2
    simp [poppedMsgs, pushedMsgs]
  | cons op ops ih =>
    obtain ⟨o, s2, os, hc, hr, ho⟩ := run_cons_some w s s1 op ops obs h
    have ht2 : ∀ op2 ∈ ops, op2.typed = true := fun op2 h2 => ht op2 (List.mem_cons_of_mem _ h2)
    have htop : op.typed = true := ht op (List.mem_cons_self _ _)
    subst ho
    rcases call_done_cases w s s2 op o hc with
      ⟨data, len, v, hop, ho, -, hv, hs⟩ | ⟨buf, bufcap, m, rest, hop, hq2, -, ho, hs⟩ |
      ⟨hop, ho, hs⟩
    · subst hop ho hs
      have hvl := mkVect_length data len v hv
      simp only [Op.typed, isInt, decide_eq_true_eq] at htop
      have hq3 : ∀ m ∈ s.q ++ [v], (m.length : Int) < 2 ^ 31 := by
        intro m hm
        rcases List.mem_append.1 hm with h1 | h1
        · exact hq m h1
        · simp only [List.mem_singleton] at h1
          subst h1
          omega
      have := ih { s with q := s.q ++ [v] } os hq3 ht2 hr
      simp only [poppedMsgs, pushedMsgs, hv, Option.toList]
      simpa using this
    · subst hop ho hs
      have hq3 : ∀ m2 ∈ rest, (m2.length : Int) < 2 ^ 31 := by
        intro m2 hm2
        exact hq m2 (by rw [hq2]; exact List.mem_cons_of_mem _ hm2)
      have hm : (m.length : Int) < 2 ^ 31 := hq m (by rw [hq2]; exact List.mem_cons_self _ _)
      have := ih { s with q := rest } os hq3 ht2 hr
      simp only [poppedMsgs, pushedMsgs, toInt_take m _ hm, hq2, List.cons_append]
      simpa using this
    · subst hop ho
      rw [hs] at hr
      have := ih s os hq ht2 hr
      simpa [poppedMsgs, pushedMsgs] using this

/-! ## C1: capacity invariant -/

/-- C1 (capacity invariant). For every capacity `C ≥ 1` and every history of
completed `push`, `pop` and `is_empty` calls on a freshly constructed
`BoundedBuffer(C)`, the history cut after any number `k` of its calls is itself
a completed history, and the buffer it leaves has `0 ≤ q.size() ≤ C` and
`cap = C`. -/
theorem capacity_invariant (w : Nat) (C : Int) (ops : List Op) (obs : List Obs)
    (s1 : BoundedBuffer) (k : Nat) (hC : 1 ≤ C)
    (h : (BoundedBuffer.ctor C).run w ops = some (obs, s1)) :
    ∃ ok sk, (BoundedBuffer.ctor C).run w (ops.take k) = some (ok, sk) ∧
      sk.cap = C ∧ 0 ≤ (sk.q.length : Int) ∧ (sk.q.length : Int) ≤ C := by
  obtain ⟨ok, sk, hk⟩ := run_take w _ s1 ops obs k h
  have hb : (BoundedBuffer.ctor C).q.length ≤ toSizeT w (BoundedBuffer.ctor C).cap := by
    simp [BoundedBuffer.ctor]
  obtain ⟨hb1, hcap⟩ := run_preserves_bound w _ sk _ ok hk hb
  refine ⟨ok, sk, hk, hcap, by omega, ?_⟩
  have hle := toSizeT_le_self w C (by omega)
  rw [hcap] at hb1
  simp only [BoundedBuffer.ctor] at hb1
  omega

/-- C1 at capacity 2: two pushes, a pop and a push complete in that order, and
after all four calls the queue length is between 0 and 2. -/
theorem capacity_invariant_witness :
    (1 : Int) ≤ 2 ∧
    (BoundedBuffer.ctor 2).run 64
        [Op.push [1] 1, Op.push [2, 3] 2, Op.pop [0, 0] 2, Op.push [] 0] =
      some ([Obs.pushed, Obs.pushed, Obs.popped 1 [1, 0], Obs.pushed], ⟨2, [[2, 3], []]⟩) ∧
    ∃ ok sk, (BoundedBuffer.ctor 2).run 64
        ([Op.push [1] 1, Op.push [2, 3] 2, Op.pop [0, 0] 2, Op.push [] 0].take 4) =
          some (ok, sk) ∧
      sk.cap = 2 ∧ 0 ≤ (sk.q.length : Int) ∧ (sk.q.length : Int) ≤ 2 :=
  ⟨by decide, by decide,
    capacity_invariant 64 2 [Op.push [1] 1, Op.push [2, 3] 2, Op.pop [0, 0] 2, Op.push [] 0]
      [Obs.pushed, Obs.pushed, Obs.popped 1 [1, 0], Obs.pushed] ⟨2, [[2, 3], []]⟩ 4
      (by decide) (by decide)⟩

/-! ## C7: no loss, no duplication -/

/-- C7 (no loss, no duplication). For every capacity and every history of
completed calls on a freshly constructed buffer (the `int` arguments being
values of type `int`), the messages handed back by the `pop` calls so far,
followed by the messages still in the queue, are exactly the vectors built by
the `push` calls so far, in order; hence when the queue is drained the multiset
of popped messages equals the multiset of pushed messages. -/
theorem no_loss_no_duplication (w : Nat) (C : Int) (ops : List Op) (obs : List Obs)
    (s1 : BoundedBuffer) (ht : ∀ op ∈ ops, op.typed = true)
    (h : (BoundedBuffer.ctor C).run w ops = some (obs, s1)) :
    poppedMsgs obs ++ s1.q = pushedMsgs ops ∧
      (s1.q = [] →
        (Multiset.ofList (poppedMsgs obs) : Multiset (List CChar)) =
          Multiset.ofList (pushedMsgs ops)) := by
  have hq : ∀ m ∈ (BoundedBuffer.ctor C).q, (m.length : Int) < 2 ^ 31 := by
    simp [BoundedBuffer.ctor]
  have hcons := run_conserves w _ s1 ops obs hq ht h
  simp only [BoundedBuffer.ctor, List.nil_append] at hcons
  refine ⟨hcons, ?_⟩
  intro hempty
  rw [hempty, List.append_nil] at hcons
  rw [hcons]

/-- C7 on an interleaving of two producers and one consumer at capacity 1:
the two pops hand back `[7, 0]` and `[5]`, the two vectors pushed, and the
queue is drained. -/
theorem no_loss_no_duplication_witness :
    (∀ op ∈ [Op.push [7, 0] 2, Op.pop [9, 9, 9] 3, Op.push [5] 1, Op.pop [7, 0, 9] 3],
      op.typed = true) ∧
    (BoundedBuffer.ctor 1).run 64
        [Op.push [7, 0] 2, Op.pop [9, 9, 9] 3, Op.push [5] 1, Op.pop [7, 0, 9] 3] =
      some ([Obs.pushed, Obs.popped 2 [7, 0, 9], Obs.pushed, Obs.popped 1 [5, 0, 9]],
        ⟨1, []⟩) ∧
    (poppedMsgs [Obs.pushed, Obs.popped 2 [7, 0, 9], Obs.pushed, Obs.popped 1 [5, 0, 9]] ++
        (BoundedBuffer.mk 1 []).q =
      pushedMsgs [Op.push [7, 0] 2, Op.pop [9, 9, 9] 3, Op.push [5] 1, Op.pop [7, 0, 9] 3] ∧
      ((BoundedBuffer.mk 1 []).q = [] →
        (Multiset.ofList
            (poppedMsgs [Obs.pushed, Obs.popped 2 [7, 0, 9], Obs.pushed, Obs.popped 1 [5, 0, 9]]) :
          Multiset (List CChar)) =
          Multiset.ofList
            (pushedMsgs [Op.push [7, 0] 2, Op.pop [9, 9, 9] 3, Op.push [5] 1,
              Op.pop [7, 0, 9] 3]))) :=
  ⟨by decide, by decide,
    no_loss_no_duplication 64 1
      [Op.push [7, 0] 2, Op.pop [9, 9, 9] 3, Op.push [5] 1, Op.pop [7, 0, 9] 3]
      [Obs.pushed, Obs.popped 2 [7, 0, 9], Obs.pushed, Obs.popped 1 [5, 0, 9]] ⟨1, []⟩
      (by decide) (by decide)⟩

/-! ## C2, C3: FIFO order and byte fidelity -/

theorem pushGuard_of_lt (w : Nat) (s : BoundedBuffer) (h : s.q.length < toSizeT w s.cap) :
    s.pushGuard w = true := by
  simp [BoundedBuffer.pushGuard, h]

theorem push_self (w : Nat) (s : BoundedBuffer) (m : List CChar)
    (h : s.q.length < toSizeT w s.cap) :
    s.push w m m.length = .done { s with q := s.q ++ [m] } := by
  simp [BoundedBuffer.push, pushGuard_of_lt w s h, mkVect_self]

/-- Pushing the messages `ms` one after the other while there is room for all
of them appends them to the queue in that order. -/
theorem run_pushes (w : Nat) (s : BoundedBuffer) (ms : List (List CChar))
    (h : s.q.length + ms.length ≤ toSizeT w s.cap) :
    s.run w (ms.map fun m => Op.push m m.length) =
      some (ms.map fun _ => Obs.pushed, { s with q := s.q ++ ms }) := by
  induction ms generalizing s with
  | nil => simp [run_nil]
  | cons m ms ih =>
    simp only [List.length_cons] at h
    have hp := push_self w s m (by omega)
    have hc : s.call w (Op.push m m.length) = .done (Obs.pushed, { s with q := s.q ++ [m] }) := by
      simp only [BoundedBuffer.call, hp]
    have hr := ih { s with q := s.q ++ [m] }
      (by simp only [List.length_append, List.length_singleton]; omega)
    simp only [List.map_cons]
    rw [run_cons_of w s _ _ _ _ _ _ hc hr]
    simp

/-- Popping into destinations that are large enough hands back the head
messages of the queue one after the other. -/
theorem run_pops (w : Nat) (cap : Int) (mb : List (List CChar × List CChar))
    (rest : List (List CChar)) (hfit : ∀ p ∈ mb, p.1.length ≤ p.2.length) :
    (BoundedBuffer.mk cap (mb.map Prod.fst ++ rest)).run w
        (mb.map fun p => Op.pop p.2 p.2.length) =
      some (mb.map fun p => Obs.popped (toInt p.1.length) (p.1 ++ p.2.drop p.1.length),
        ⟨cap, rest⟩) := by
  induction mb with
  | nil => simp [run_nil]
  | cons p mb ih =>
    have hp := pop_cons cap p.1 (mb.map Prod.fst ++ rest) p.2 p.2.length
      (hfit p (List.mem_cons_self _ _))
    have hc : (BoundedBuffer.mk cap (p.1 :: (mb.map Prod.fst ++ rest))).call w
        (Op.pop p.2 p.2.length) =
        .done (Obs.popped (toInt p.1.length) (p.1 ++ p.2.drop p.1.length),
          ⟨cap, mb.map Prod.fst ++ rest⟩) := by
      simp only [BoundedBuffer.call, hp]
    have hr := ih (fun p2 h2 => hfit p2 (List.mem_cons_of_mem _ h2))
    simp only [List.map_cons, List.cons_append]
    rw [run_cons_of w _ _ _ _ _ _ _ hc hr]

theorem poppedMsgs_pushed (n : List (List CChar × List CChar)) (os : List Obs) :
    poppedMsgs ((n.map fun _ => Obs.pushed) ++ os) = poppedMsgs os := by
  induction n with
  | nil => rfl
  | cons p n ih => simpa [poppedMsgs] using ih

theorem poppedMsgs_popped (mb : List (List CChar × List CChar)) :
    poppedMsgs (mb.map fun p => Obs.popped (p.1.length : Int) (p.1 ++ p.2.drop p.1.length)) =
      mb.map Prod.fst := by
  induction mb with
  | nil => rfl
  | cons p mb ih => simp [poppedMsgs, ih]

/-- C2 (FIFO order). Let `mb` list `n` messages, each paired with the
destination its `pop` will use, the destination at least as long as the
message. If `n ≤ C`, `C` fits `size_t` and every message length fits `int`,
then pushing the messages in order onto a fresh `BoundedBuffer(C)` and popping
`n` times completes, every `pop` returns the length of its message and leaves
the message at the start of its destination, in push order, and the buffer is
empty again. More generally a `pop` with a large enough destination always
removes the head of the queue, and a completed `push` adds at the tail. -/
theorem fifo_order (w : Nat) (C : Int) (mb : List (List CChar × List CChar))
    (hn : (mb.length : Int) ≤ C) (hw : C < (2 : Int) ^ w)
    (hlen : ∀ p ∈ mb, (p.1.length : Int) < 2 ^ 31)
    (hfit : ∀ p ∈ mb, p.1.length ≤ p.2.length) :
    (BoundedBuffer.ctor C).run w
        ((mb.map fun p => Op.push p.1 p.1.length) ++ mb.map fun p => Op.pop p.2 p.2.length) =
      some ((mb.map fun _ => Obs.pushed) ++
          mb.map fun p => Obs.popped (p.1.length : Int) (p.1 ++ p.2.drop p.1.length),
        BoundedBuffer.ctor C) ∧
    poppedMsgs ((mb.map fun _ => Obs.pushed) ++
        mb.map fun p => Obs.popped (p.1.length : Int) (p.1 ++ p.2.drop p.1.length)) =
      mb.map Prod.fst ∧
    (∀ (cap : Int) (m : List CChar) (rest : List (List CChar)) (buf : List CChar) (bufcap : Int),
      m.length ≤ buf.length →
        (BoundedBuffer.mk cap (m :: rest)).pop buf bufcap =
          .done (toInt m.length, m ++ buf.drop m.length, ⟨cap, rest⟩)) ∧
    (∀ (s s1 : BoundedBuffer) (data : List CChar) (len : Int),
      s.push w data len = .done s1 → ∃ v, mkVect data len = some v ∧ s1.q = s.q ++ [v]) := by
  refine ⟨?_, ?_, ?_, ?_⟩
  · have hC : 0 ≤ C := by omega
    have hsz := toSizeT_eq_self w C hC hw
    have h1 := run_pushes w (BoundedBuffer.ctor C) (mb.map Prod.fst)
      (by simp only [BoundedBuffer.ctor, List.length_nil, List.length_map]; omega)
    have h2 := run_pops w C mb [] hfit
    have h3 : (mb.map fun p => Obs.popped (toInt p.1.length) (p.1 ++ p.2.drop p.1.length)) =
        mb.map fun p => Obs.popped (p.1.length : Int) (p.1 ++ p.2.drop p.1.length) := by
      apply List.map_congr_left
      intro p hp
      rw [toInt_eq_self p.1.length (hlen p hp)]
    rw [h3] at h2
    simp only [List.map_map, BoundedBuffer.ctor, List.nil_append, List.append_nil] at h1 h2
    have h4 := run_append_of w _ _ _ _ _ _ _ h1 h2
    simpa [BoundedBuffer.ctor, Function.comp_def] using h4
  · rw [poppedMsgs_pushed, poppedMsgs_popped]
  · intro cap m rest buf bufcap h
    exact pop_cons cap m rest buf bufcap h
  · intro s s1 data len h
    obtain ⟨-, v, hv, hs⟩ := (push_done_iff w s s1 data len).1 h
    exact ⟨v, hv, by rw [hs]⟩

/-- C2 at capacity 3 with three messages, one of them holding a zero byte and
one of length 0. -/
theorem fifo_order_witness :
    ((([([1, 0], [5, 5, 5]), ([], [5]), ([9], [5, 5])] :
        List (List CChar × List CChar)).length : Int) ≤ 3) ∧
    (3 : Int) < (2 : Int) ^ 64 ∧
    (∀ p ∈ ([([1, 0], [5, 5, 5]), ([], [5]), ([9], [5, 5])] : List (List CChar × List CChar)),
      (p.1.length : Int) < 2 ^ 31) ∧
    (∀ p ∈ ([([1, 0], [5, 5, 5]), ([], [5]), ([9], [5, 5])] : List (List CChar × List CChar)),
      p.1.length ≤ p.2.length) ∧
    (BoundedBuffer.ctor 3).run 64
        [Op.push [1, 0] 2, Op.push [] 0, Op.push [9] 1,
          Op.pop [5, 5, 5] 3, Op.pop [5] 1, Op.pop [5, 5] 2] =
      some ([Obs.pushed, Obs.pushed, Obs.pushed,
          Obs.popped 2 [1, 0, 5], Obs.popped 0 [5], Obs.popped 1 [9, 5]],
        BoundedBuffer.ctor 3) ∧
    poppedMsgs [Obs.pushed, Obs.pushed, Obs.pushed,
        Obs.popped 2 [1, 0, 5], Obs.popped 0 [5], Obs.popped 1 [9, 5]] =
      [[1, 0], [], [9]] :=
  have h := fifo_order 64 3 [([1, 0], [5, 5, 5]), ([], [5]), ([9], [5, 5])]
    (by decide) (by decide) (by decide) (by decide)
  ⟨by decide, by decide, by decide, by decide, h.1, h.2.1⟩

/-- C3 (round-trip byte fidelity). For every byte sequence `data` (any byte
values) whose length fits `int`, every capacity `C ≥ 1` that fits `size_t` and
every destination `buf` of `bufcap ≥ data.length` bytes, `push(data, len)` with
`len = data.length` on a fresh `BoundedBuffer(C)` completes, the following
`pop(buf, bufcap)` completes and returns exactly `len`, the first `len` bytes
of the destination equal `data`, the destination keeps its size, and the buffer
is empty again. -/
theorem round_trip (w : Nat) (C : Int) (data buf : List CChar) (bufcap : Int)
    (hC : 1 ≤ C) (hw : C < (2 : Int) ^ w) (hlen : (data.length : Int) < 2 ^ 31)
    (hcap : (data.length : Int) ≤ bufcap) (hbuf : (buf.length : Int) = bufcap) :
    ∃ s1 buf1 s2, (BoundedBuffer.ctor C).push w data data.length = .done s1 ∧
      s1.pop buf bufcap = .done ((data.length : Int), buf1, s2) ∧
      buf1.take data.length = data ∧ buf1.length = buf.length ∧
      s2 = BoundedBuffer.ctor C := by
  have hsz := toSizeT_eq_self w C (by omega) hw
  have hfit : data.length ≤ buf.length := by omega
  have hp := push_self w (BoundedBuffer.ctor C) data
    (by simp only [BoundedBuffer.ctor, List.length_nil]; omega)
  refine ⟨_, data ++ buf.drop data.length, ⟨C, []⟩, hp, ?_, by simp, ?_, rfl⟩
  · simp only [BoundedBuffer.ctor, List.nil_append]
    rw [pop_cons C data [] buf bufcap hfit, toInt_eq_self data.length hlen]
  · simp only [List.length_append, List.length_drop]
    omega

/-- C3 on a four-byte message holding `0x00` and `0xff`, popped into a
six-byte destination. -/
theorem round_trip_witness :
    (1 : Int) ≤ 1 ∧ (1 : Int) < (2 : Int) ^ 64 ∧
    ((([0, 255, 0, 7] : List CChar).length : Int) < 2 ^ 31) ∧
    ((([0, 255, 0, 7] : List CChar).length : Int) ≤ 6) ∧
    ((([1, 1, 1, 1, 1, 1] : List CChar).length : Int) = 6) ∧
    ∃ s1 buf1 s2,
      (BoundedBuffer.ctor 1).push 64 [0, 255, 0, 7] ([0, 255, 0, 7] : List CChar).length =
        .done s1 ∧
      s1.pop [1, 1, 1, 1, 1, 1] 6 =
        .done ((([0, 255, 0, 7] : List CChar).length : Int), buf1, s2) ∧
      buf1.take ([0, 255, 0, 7] : List CChar).length = [0, 255, 0, 7] ∧
      buf1.length = ([1, 1, 1, 1, 1, 1] : List CChar).length ∧
      s2 = BoundedBuffer.ctor 1 :=
  ⟨by decide, by decide, by decide, by decide, by decide,
    round_trip 64 1 [0, 255, 0, 7] [1, 1, 1, 1, 1, 1] 6 (by decide) (by decide) (by decide)
      (by decide) (by decide)⟩

/-! ## C8: `is_empty` -/

/-- C8 (`is_empty` consistency). For every capacity `C ≥ 1` that fits `size_t`:
`is_empty()` on a fresh `BoundedBuffer(C)` returns true; one `push(data, len)`
with `0 ≤ len ≤` the extent of `data` (zero length included) completes on the
fresh buffer and `is_empty()` then returns false; and in every state
`is_empty()` returns true exactly when the queue length is 0 and leaves the
queue and the capacity as they were. -/
theorem is_empty_consistency (w : Nat) (C : Int) (data : List CChar) (len : Int)
    (hC : 1 ≤ C) (hw : C < (2 : Int) ^ w) (h0 : 0 ≤ len) (h1 : len ≤ (data.length : Int)) :
    (BoundedBuffer.ctor C).is_empty = (true, BoundedBuffer.ctor C) ∧
    (∃ s1, (BoundedBuffer.ctor C).push w data len = .done s1 ∧ s1.is_empty = (false, s1)) ∧
    (∀ s : BoundedBuffer, (s.is_empty.1 = true ↔ s.q.length = 0) ∧ s.is_empty.2 = s) := by
  refine ⟨rfl, ?_, ?_⟩
  · have hsz := toSizeT_eq_self w C (by omega) hw
    have hg : (BoundedBuffer.ctor C).pushGuard w = true :=
      pushGuard_of_lt w _ (by simp only [BoundedBuffer.ctor, List.length_nil]; omega)
    refine ⟨⟨C, [data.take len.toNat]⟩, ?_, rfl⟩
    unfold BoundedBuffer.push
    rw [hg]
    simp [mkVect, h0, h1, BoundedBuffer.ctor]
  · intro s
    refine ⟨?_, rfl⟩
    cases hq : s.q <;> simp [BoundedBuffer.is_empty, hq]

/-- C8 at capacity 1 with a zero-length push. -/
theorem is_empty_consistency_witness :
    (1 : Int) ≤ 1 ∧ (1 : Int) < (2 : Int) ^ 64 ∧ (0 : Int) ≤ 0 ∧
    (0 : Int) ≤ (([] : List CChar).length : Int) ∧
    (BoundedBuffer.ctor 1).is_empty = (true, BoundedBuffer.ctor 1) ∧
    (∃ s1, (BoundedBuffer.ctor 1).push 64 [] 0 = .done s1 ∧ s1.is_empty = (false, s1)) ∧
    (∀ s : BoundedBuffer, (s.is_empty.1 = true ↔ s.q.length = 0) ∧ s.is_empty.2 = s) :=
  ⟨by decide, by decide, by decide, by decide,
    is_empty_consistency 64 1 [] 0 (by decide) (by decide) (by decide) (by decide)⟩

/-! ## C6: blocking guards -/

theorem call_no_pop_length (w : Nat) (s s1 : BoundedBuffer) (op : Op) (o : Obs)
    (hop : op.isPop = false) (h : s.call w op = .done (o, s1)) :
    s.q.length ≤ s1.q.length ∧ s1.cap = s.cap := by
  rcases call_done_cases w s s1 op o h with
    ⟨data, len, v, -, -, -, -, hs⟩ | ⟨buf, bufcap, m, rest, hp, -, -, -, -⟩ | ⟨-, -, hs⟩
  · subst hs
    simp
  · subst hp
    simp [Op.isPop] at hop
  · subst hs
    simp

theorem call_no_push_length (w : Nat) (s s1 : BoundedBuffer) (op : Op) (o : Obs)
    (hop : op.isPush = false) (h : s.call w op = .done (o, s1)) :
    s1.q.length ≤ s.q.length := by
  rcases call_done_cases w s s1 op o h with
    ⟨data, len, v, hp, -, -, -, -⟩ | ⟨buf, bufcap, m, rest, -, hq, -, -, hs⟩ | ⟨-, -, hs⟩
  · subst hp
    simp [Op.isPush] at hop
  · subst hs
    simp [hq]
  · subst hs
    exact le_refl _

/-- Without a `pop` in it, a completed history does not shorten the queue. -/
theorem run_no_pop_length (w : Nat) (s s1 : BoundedBuffer) (ops : List Op) (obs : List Obs)
    (hops : ∀ op ∈ ops, op.isPop = false) (h : s.run w ops = some (obs, s1)) :
    s.q.length ≤ s1.q.length ∧ s1.cap = s.cap := by
  induction ops generalizing s obs with
  | nil =>
    simp only [run_nil, Option.some.injEq, Prod.mk.injEq] at h
    obtain ⟨-, h2⟩ := h
    subst h2
    exact ⟨le_refl _, rfl⟩
  | cons op ops ih =>
    obtain ⟨o, s2, os, hc, hr, -⟩ := run_cons_some w s s1 op ops obs h
    obtain ⟨h1, h2⟩ := call_no_pop_length w s s2 op o (hops op (List.mem_cons_self _ _)) hc
    obtain ⟨h3, h4⟩ := ih s2 os (fun op2 hm => hops op2 (List.mem_cons_of_mem _ hm)) hr
    exact ⟨le_trans h1 h3, h4.trans h2⟩

/-- Without a `push` in it, a completed history does not lengthen the queue. -/
theorem run_no_push_length (w : Nat) (s s1 : BoundedBuffer) (ops : List Op) (obs : List Obs)
    (hops : ∀ op ∈ ops, op.isPush = false) (h : s.run w ops = some (obs, s1)) :
    s1.q.length ≤ s.q.length := by
  induction ops generalizing s obs with
  | nil =>
    simp only [run_nil, Option.some.injEq, Prod.mk.injEq] at h
    obtain ⟨-, h2⟩ := h
    subst h2
    exact le_refl _
  | cons op ops ih =>
    obtain ⟨o, s2, os, hc, hr, -⟩ := run_cons_some w s s1 op ops obs h
    have h1 := call_no_push_length w s s2 op o (hops op (List.mem_cons_self _ _)) hc
    have h3 := ih s2 os (fun op2 hm => hops op2 (List.mem_cons_of_mem _ hm)) hr
    exact le_trans h3 h1

theorem push_blocked_of_full (w : Nat) (s : BoundedBuffer) (data : List CChar) (len : Int)
    (hC : 0 ≤ s.cap) (hfull : s.cap ≤ (s.q.length : Int)) : s.push w data len = .blocked := by
  rw [push_blocked_iff]
  have hle := toSizeT_le_self w s.cap hC
  simp only [BoundedBuffer.pushGuard, decide_eq_false_iff_not, not_lt]
  omega

/-- C6 (blocking guards). On a buffer whose capacity is at least 1: a `push`
does not complete in a state whose queue length equals the capacity, and a
`pop` does not complete in a state whose queue is empty; so when the buffer is
full, a `push` that completes after a history `ops` of completed calls has a
completed `pop` in `ops`, and when the buffer is empty, a `pop` that completes
after `ops` has a completed `push` in `ops`. -/
theorem blocking_guards (w : Nat) (s : BoundedBuffer) (hC : 1 ≤ s.cap) :
    (∀ data len, (s.q.length : Int) = s.cap → s.push w data len = .blocked) ∧
    (∀ buf bufcap, s.q.length = 0 → s.pop buf bufcap = .blocked) ∧
    (∀ ops data len obs s1, (s.q.length : Int) = s.cap →
      s.run w (ops ++ [Op.push data len]) = some (obs, s1) → ∃ op ∈ ops, op.isPop = true) ∧
    (∀ ops buf bufcap obs s1, s.q.length = 0 →
      s.run w (ops ++ [Op.pop buf bufcap]) = some (obs, s1) → ∃ op ∈ ops, op.isPush = true) := by
  refine ⟨?_, ?_, ?_, ?_⟩
  · intro data len hfull
    exact push_blocked_of_full w s data len (by omega) (by omega)
  · intro buf bufcap hempty
    rw [pop_blocked_iff]
    exact List.length_eq_zero.1 hempty
  · intro ops data len obs s1 hfull hrun
    by_contra hno
    have hops : ∀ op ∈ ops, op.isPop = false := by
      intro op hop
      cases hp : op.isPop
      · rfl
      · exact absurd ⟨op, hop, hp⟩ hno
    obtain ⟨oa, sa, ob, ha, hb, -⟩ := run_append_some w s s1 ops _ obs hrun
    obtain ⟨hlen, hcap⟩ := run_no_pop_length w s sa ops oa hops ha
    obtain ⟨o, s2, os, hc, -, -⟩ := run_cons_some w sa s1 _ [] ob hb
    have hblk := push_blocked_of_full w sa data len (by omega) (by omega)
    simp [BoundedBuffer.call, hblk] at hc
  · intro ops buf bufcap obs s1 hempty hrun
    by_contra hno
    have hops : ∀ op ∈ ops, op.isPush = false := by
      intro op hop
      cases hp : op.isPush
      · rfl
      · exact absurd ⟨op, hop, hp⟩ hno
    obtain ⟨oa, sa, ob, ha, hb, -⟩ := run_append_some w s s1 ops _ obs hrun
    have hlen := run_no_push_length w s sa ops oa hops ha
    obtain ⟨o, s2, os, hc, -, -⟩ := run_cons_some w sa s1 _ [] ob hb
    have hblk : sa.pop buf bufcap = .blocked := by
      rw [pop_blocked_iff]
      exact List.length_eq_zero.1 (by omega)
    simp [BoundedBuffer.call, hblk] at hc

/-- C6 at capacity 1. On the full buffer a `push` is blocked, and the history
`is_empty, pop, push` that completes from it has its `pop` before the `push`;
on the empty buffer a `pop` is blocked, and the history `push, pop` that
completes from it has its `push` before the `pop`. -/
theorem blocking_guards_witness :
    ((1 : Int) ≤ (BoundedBuffer.mk 1 [[4]]).cap ∧
      (((BoundedBuffer.mk 1 [[4]]).q.length : Int) = (BoundedBuffer.mk 1 [[4]]).cap) ∧
      (BoundedBuffer.mk 1 [[4]]).push 64 [5] 1 = .blocked ∧
      (BoundedBuffer.mk 1 [[4]]).run 64 ([Op.is_empty, Op.pop [0] 1] ++ [Op.push [5] 1]) =
        some ([Obs.emptiness false, Obs.popped 1 [4], Obs.pushed], ⟨1, [[5]]⟩) ∧
      ∃ op ∈ [Op.is_empty, Op.pop [0] 1], op.isPop = true) ∧
    ((1 : Int) ≤ (BoundedBuffer.mk 1 []).cap ∧
      (BoundedBuffer.mk 1 []).q.length = 0 ∧
      (BoundedBuffer.mk 1 []).pop [0] 1 = .blocked ∧
      (BoundedBuffer.mk 1 []).run 64 ([Op.push [5] 1] ++ [Op.pop [0] 1]) =
        some ([Obs.pushed, Obs.popped 1 [5]], ⟨1, []⟩) ∧
      ∃ op ∈ [Op.push [5] 1], op.isPush = true) :=
  have hf := blocking_guards 64 ⟨1, [[4]]⟩ (by decide)
  have he := blocking_guards 64 ⟨1, []⟩ (by decide)
  ⟨⟨by decide, by decide, hf.1 [5] 1 (by decide), by decide,
      hf.2.2.1 [Op.is_empty, Op.pop [0] 1] [5] 1
        [Obs.emptiness false, Obs.popped 1 [4], Obs.pushed] ⟨1, [[5]]⟩ (by decide) (by decide)⟩,
    ⟨by decide, by decide, he.2.1 [0] 1 (by decide), by decide,
      he.2.2.2 [Op.push [5] 1] [0] 1 [Obs.pushed, Obs.popped 1 [5]] ⟨1, []⟩
        (by decide) (by decide)⟩⟩

/-! ## C10: the guard of `push` for a capacity that is not positive -/

theorem run_cap_zero (w : Nat) (s s1 : BoundedBuffer) (ops : List Op) (obs : List Obs)
    (hcap : s.cap = 0) (hq : s.q = []) (h : s.run w ops = some (obs, s1)) : s1.q = [] := by
  have hb : s.q.length ≤ toSizeT w s.cap := by simp [hq]
  obtain ⟨h1, h2⟩ := run_preserves_bound w s s1 ops obs h hb
  rw [h2, hcap, toSizeT_zero] at h1
  exact List.length_eq_zero.1 (by omega)

/-- C10 (signed/unsigned guard of `push`). The guard `q.size() < cap` compares
the queue length with `cap` converted modulo `2^w`. When `cap = 0` the guard is
false in every state, no `push` completes, and every completed history from a
fresh `BoundedBuffer(0)` leaves the queue empty. When `cap < 0` the guard is
true in every state whose queue length is below `2^w + cap`; so from a fresh
buffer any `n` pushes with `n ≤ 2^w + cap` all complete and leave `n` messages
queued, a length above `cap`. -/
theorem signed_unsigned_guard (w : Nat) (s : BoundedBuffer) :
    (s.cap = 0 → s.pushGuard w = false ∧ ∀ data len, s.push w data len = .blocked) ∧
    (∀ ops obs s1, (BoundedBuffer.ctor 0).run w ops = some (obs, s1) → s1.q = []) ∧
    (s.cap < 0 → (s.q.length : Int) < (2 : Int) ^ w + s.cap → s.pushGuard w = true) ∧
    (∀ (ms : List (List CChar)), s.cap < 0 → (ms.length : Int) ≤ (2 : Int) ^ w + s.cap →
      (BoundedBuffer.ctor s.cap).run w (ms.map fun m => Op.push m m.length) =
        some (ms.map fun _ => Obs.pushed, ⟨s.cap, ms⟩) ∧
      s.cap < (ms.length : Int)) := by
  refine ⟨?_, ?_, ?_, ?_⟩
  · intro hcap
    have hg : s.pushGuard w = false := by
      simp [BoundedBuffer.pushGuard, hcap, toSizeT_zero]
    exact ⟨hg, fun data len => (push_blocked_iff w s data len).2 hg⟩
  · intro ops obs s1 h
    exact run_cap_zero w _ s1 ops obs rfl rfl h
  · intro hneg hlt
    have hsz := toSizeT_neg w s.cap hneg (by omega)
    exact pushGuard_of_lt w s (by omega)
  · intro ms hneg hle
    have hsz := toSizeT_neg w s.cap hneg (by omega)
    have h := run_pushes w (BoundedBuffer.ctor s.cap) ms
      (by simp only [BoundedBuffer.ctor, List.length_nil]; omega)
    refine ⟨?_, by omega⟩
    simpa [BoundedBuffer.ctor] using h

/-- C10 with a 64-bit `size_t`: at `cap = 0` a `push` on the empty buffer is
blocked; at `cap = -1` the guard holds with three messages queued, and three
pushes on a fresh buffer all complete. -/
theorem signed_unsigned_guard_witness :
    ((BoundedBuffer.mk 0 []).cap = 0 ∧
      (BoundedBuffer.mk 0 []).pushGuard 64 = false ∧
      ∀ data len, (BoundedBuffer.mk 0 []).push 64 data len = .blocked) ∧
    ((BoundedBuffer.mk (-1) [[1], [2], [3]]).cap < 0 ∧
      (((BoundedBuffer.mk (-1) [[1], [2], [3]]).q.length : Int) <
        (2 : Int) ^ 64 + (BoundedBuffer.mk (-1) [[1], [2], [3]]).cap) ∧
      (BoundedBuffer.mk (-1) [[1], [2], [3]]).pushGuard 64 = true) ∧
    ((BoundedBuffer.ctor (-1)).run 64 ([[1], [2], [3]].map fun m => Op.push m m.length) =
        some ([[1], [2], [3]].map fun _ => Obs.pushed, ⟨-1, [[1], [2], [3]]⟩) ∧
      (-1 : Int) < (([[1], [2], [3]] : List (List CChar)).length : Int)) :=
  ⟨⟨rfl, (signed_unsigned_guard 64 ⟨0, []⟩).1 rfl⟩,
    ⟨by decide, by decide,
      (signed_unsigned_guard 64 ⟨-1, [[1], [2], [3]]⟩).2.2.1 (by decide) (by decide)⟩,
    (signed_unsigned_guard 64 ⟨-1, []⟩).2.2.2 [[1], [2], [3]] (by decide) (by decide)⟩

/-! ## C5: construction -/

/-- C5 as stated fails at capacity 0 (and at capacity -1): the constructor
call completes with a buffer and reports no `InvalidArgument`. -/
theorem construct_nonpositive_succeeds :
    construct 0 = .done ⟨0, []⟩ ∧ construct 0 ≠ .failed .InvalidArgument ∧
    construct (-1) = .done ⟨-1, []⟩ ∧ construct (-1) ≠ .failed .InvalidArgument := by
  decide

/-- C5 amended. For every integer capacity, positive or not, constructing
`BoundedBuffer(capacity)` completes with a buffer whose queue is empty and
whose capacity is the argument; it never fails. -/
theorem construct_always_succeeds (c : Int) :
    construct c = .done (BoundedBuffer.ctor c) ∧
    (BoundedBuffer.ctor c).q = [] ∧ (BoundedBuffer.ctor c).cap = c ∧
    ∀ e, construct c ≠ .failed e := by
  refine ⟨rfl, rfl, rfl, ?_⟩
  intro e h
  simp [construct] at h

/-! ## C4: the destination bound of `pop` -/

/-- C4 does not hold of `pop`: with the two-byte message `[1, 2]` at the head
and a four-byte destination passed with `bufcap = 1`, `pop` reports no error,
copies both bytes (one more than `bufcap`) and returns 2. `bufcap` has no
influence on the outcome. -/
theorem pop_ignores_bufcap :
    (BoundedBuffer.mk 1 [[1, 2]]).pop [0, 0, 0, 0] 1 = .done (2, [1, 2, 0, 0], ⟨1, []⟩) ∧
    (BoundedBuffer.mk 1 [[1, 2]]).pop [0, 0, 0, 0] 1 ≠ .failed .BufferTooSmall ∧
    (∀ (s : BoundedBuffer) (buf : List CChar) (b1 b2 : Int), s.pop buf b1 = s.pop buf b2) := by
  refine ⟨by decide, by decide, ?_⟩
  intro s buf b1 b2
  rfl

/-! ## C9: mutual exclusion -/

/-- A thread that runs the body of `push` on its own, with the guard true,
leaves the buffer that `push` computes, and `m` free. -/
theorem pushBody_runs_as_push (w : Nat) (s : BoundedBuffer) (vect : List CChar)
    (hg : s.pushGuard w = true) :
    Sys.exec w [0, 0, 0, 0, 0] ⟨s, none, [pushBody vect]⟩ =
      some ⟨{ s with q := s.q ++ [vect] }, none, [[]]⟩ := by
  simp [Sys.exec, Sys.step, pushBody, hg]

/-- A thread that runs the body of `pop` on its own, with the guard true,
leaves the buffer without its head message, and `m` free. -/
theorem popBody_runs_as_pop (w : Nat) (s : BoundedBuffer) (hg : s.popGuard = true) :
    Sys.exec w [0, 0, 0, 0, 0] ⟨s, none, [popBody]⟩ =
      some ⟨{ s with q := s.q.tail }, none, [[]]⟩ := by
  simp [Sys.exec, Sys.step, popBody, hg]

theorem inv_after (σ : Sys) (t : Nat) (ow : Option Nat) (prog1 : List Stmt)
    (buf1 : BoundedBuffer)
    (hother : ∀ u prog, u ≠ t → σ.threads[u]? = some prog →
      lockDiscipline (decide (ow = some u)) prog = true)
    (hself : lockDiscipline (decide (ow = some t)) prog1 = true) :
    Sys.Inv ⟨buf1, ow, σ.threads.set t prog1⟩ := by
  intro u prog hu
  simp only [List.getElem?_set] at hu
  by_cases htu : t = u
  · subst htu
    rw [if_pos rfl] at hu
    split at hu
    · simp only [Option.some.injEq] at hu
      subst hu
      exact hself
    · simp at hu
  · rw [if_neg htu] at hu
    exact hother u prog (fun h => htu h.symm) hu

theorem others_of_inv (σ : Sys) (t : Nat) (hinv : σ.Inv) :
    ∀ u prog, u ≠ t → σ.threads[u]? = some prog →
      lockDiscipline (decide (σ.owner = some u)) prog = true :=
  fun u prog _ hu => hinv u prog hu

theorem others_not_owner (σ : Sys) (t : Nat) (ow : Option Nat) (hinv : σ.Inv)
    (hbefore : σ.owner = none ∨ σ.owner = some t) (hafter : ow = none ∨ ow = some t) :
    ∀ u prog, u ≠ t → σ.threads[u]? = some prog →
      lockDiscipline (decide (ow = some u)) prog = true := by
  intro u prog hut hu
  have h := hinv u prog hu
  have h1 : decide (σ.owner = some u) = false := by
    rcases hbefore with hb | hb <;> simp [hb]
    exact fun h2 => hut h2.symm
  have h2 : decide (ow = some u) = false := by
    rcases hafter with ha | ha <;> simp [ha]
    exact fun h2 => hut h2.symm
  rw [h2, ← h1]
  exact h

/-- One statement run by one thread keeps the lock invariant. -/
theorem step_preserves_inv (w : Nat) (t : Nat) (σ σ1 : Sys) (hinv : σ.Inv)
    (h : σ.step w t = some σ1) : σ1.Inv := by
  unfold Sys.step at h
  cases hp : σ.threads[t]? with
  | none => rw [hp] at h; simp at h
  | some prog =>
    rw [hp] at h
    have hself := hinv t prog hp
    cases prog with
    | nil => simp at h
    | cons st rest =>
      cases st with
      | lock =>
        simp only at h
        split at h
        · rename_i hown
          simp only [Option.some.injEq] at h
          subst h
          simp only [hown, lockDiscipline] at hself
          exact inv_after σ t (some t) rest σ.buf
            (others_not_owner σ t (some t) hinv (Or.inl hown) (Or.inr rfl))
            (by simpa using hself)
        · simp at h
      | waitFull =>
        simp only at h
        split at h
        · rename_i hown
          simp only [hown, lockDiscipline, decide_True, Bool.true_and] at hself
          split at h
          · simp only [Option.some.injEq] at h
            subst h
            exact inv_after σ t σ.owner rest σ.buf (others_of_inv σ t hinv)
              (by simpa [hown] using hself)
          · simp only [Option.some.injEq] at h
            subst h
            exact inv_after σ t none _ σ.buf
              (others_not_owner σ t none hinv (Or.inr hown) (Or.inl rfl))
              (by simpa [lockDiscipline] using hself)
        · simp at h
      | waitEmpty =>
        simp only at h
        split at h
        · rename_i hown
          simp only [hown, lockDiscipline, decide_True, Bool.true_and] at hself
          split at h
          · simp only [Option.some.injEq] at h
            subst h
            exact inv_after σ t σ.owner rest σ.buf (others_of_inv σ t hinv)
              (by simpa [hown] using hself)
          · simp only [Option.some.injEq] at h
            subst h
            exact inv_after σ t none _ σ.buf
              (others_not_owner σ t none hinv (Or.inr hown) (Or.inl rfl))
              (by simpa [lockDiscipline] using hself)
        · simp at h
      | qPush vect =>
        simp only [Option.some.injEq] at h
        subst h
        simp only [lockDiscipline, Bool.and_eq_true] at hself
        exact inv_after σ t σ.owner rest _ (others_of_inv σ t hinv) hself.2
      | qPop =>
        simp only [Option.some.injEq] at h
        subst h
        simp only [lockDiscipline, Bool.and_eq_true] at hself
        exact inv_after σ t σ.owner rest _ (others_of_inv σ t hinv) hself.2
      | notify =>
        simp only [Option.some.injEq] at h
        subst h
        simp only [lockDiscipline] at hself
        exact inv_after σ t σ.owner rest _ (others_of_inv σ t hinv) hself
      | unlock =>
        simp only at h
        split at h
        · rename_i hown
          simp only [Option.some.injEq] at h
          subst h
          simp only [hown, lockDiscipline, decide_True, Bool.true_and] at hself
          exact inv_after σ t none rest σ.buf
            (others_not_owner σ t none hinv (Or.inr hown) (Or.inl rfl))
            (by simpa using hself)
        · simp at h
      | qEmpty =>
        simp only [Option.some.injEq] at h
        subst h
        simp only [lockDiscipline, Bool.and_eq_true] at hself
        exact inv_after σ t σ.owner rest _ (others_of_inv σ t hinv) hself.2

theorem exec_preserves_inv (w : Nat) (sched : List Nat) (σ σ1 : Sys) (hinv : σ.Inv)
    (h : Sys.exec w sched σ = some σ1) : σ1.Inv := by
  induction sched generalizing σ with
  | nil =>
    simp only [Sys.exec, Option.some.injEq] at h
    subst h
    exact hinv
  | cons t sched ih =>
    unfold Sys.exec at h
    cases hs : σ.step w t with
    | none => rw [hs] at h; simp at h
    | some σ2 =>
      rw [hs] at h
      exact ih σ2 (step_preserves_inv w t σ σ2 hinv hs) h

theorem lockDiscipline_head (held : Bool) (st : Stmt) (rest : List Stmt)
    (hacc : st.accessesQ = true) (h : lockDiscipline held (st :: rest) = true) : held = true := by
  cases st <;> simp [Stmt.accessesQ] at hacc <;> simp [lockDiscipline] at h <;> exact h.1

theorem owner_of_accessing (σ : Sys) (t : Nat) (hinv : σ.Inv) (hacc : σ.accessing t = true) :
    σ.owner = some t := by
  unfold Sys.accessing at hacc
  cases hp : σ.threads[t]? with
  | none => rw [hp] at hacc; simp at hacc
  | some prog =>
    rw [hp] at hacc
    cases prog with
    | nil => simp at hacc
    | cons st rest =>
      simp only at hacc
      have h := lockDiscipline_head _ st rest hacc (hinv t _ hp)
      simpa using h

/-- The part of mutual exclusion that holds: when every thread runs the body
of `push` or of `pop` and `m` is free at the start, then along every schedule
a thread whose next statement reads or writes `q` holds `m`, so no two threads
are at such a statement together. -/
theorem push_pop_hold_lock (w : Nat) (buf : BoundedBuffer) (threads : List (List Stmt))
    (sched : List Nat) (σ : Sys)
    (hbody : ∀ prog ∈ threads, prog = popBody ∨ ∃ vect, prog = pushBody vect)
    (h : Sys.exec w sched ⟨buf, none, threads⟩ = some σ) :
    (∀ t, σ.accessing t = true → σ.owner = some t) ∧
    (∀ t u, σ.accessing t = true → σ.accessing u = true → t = u) := by
  have hinv0 : Sys.Inv ⟨buf, none, threads⟩ := by
    intro u prog hu
    have hmem : prog ∈ threads := List.getElem?_mem hu
    rcases hbody prog hmem with hb | ⟨vect, hb⟩ <;> subst hb <;>
      simp [lockDiscipline, popBody, pushBody]
  have hinv := exec_preserves_inv w sched _ σ hinv0 h
  refine ⟨fun t ht => owner_of_accessing σ t hinv ht, ?_⟩
  intro t u ht hu
  have h1 := owner_of_accessing σ t hinv ht
  have h2 := owner_of_accessing σ u hinv hu
  rw [h1] at h2
  exact Option.some.inj h2

/-- C9 does not hold of `is_empty`. Its body reads `q` with no `lock` before
it, unlike the bodies of `push` and `pop`. With thread 0 in `push` and thread 1
in `is_empty` on an empty buffer of capacity 1: after thread 0 has locked `m`
and passed its wait, thread 0 holds `m` and is at `q.push(vect)`, thread 1 is
at `q.empty()`, and thread 1 can run that read although it does not hold
`m`. -/
theorem is_empty_reads_without_lock :
    lockDiscipline false (pushBody [1]) = true ∧
    lockDiscipline false popBody = true ∧
    lockDiscipline false isEmptyBody = false ∧
    Sys.exec 64 [0, 0] ⟨⟨1, []⟩, none, [pushBody [1], isEmptyBody]⟩ =
      some ⟨⟨1, []⟩, some 0, [[.qPush [1], .notify, .unlock], isEmptyBody]⟩ ∧
    (Sys.mk ⟨1, []⟩ (some 0) [[.qPush [1], .notify, .unlock], isEmptyBody]).accessing 0 = true ∧
    (Sys.mk ⟨1, []⟩ (some 0) [[.qPush [1], .notify, .unlock], isEmptyBody]).accessing 1 = true ∧
    (Sys.mk ⟨1, []⟩ (some 0) [[.qPush [1], .notify, .unlock], isEmptyBody]).step 64 1 =
      some ⟨⟨1, []⟩, some 0, [[.qPush [1], .notify, .unlock], []]⟩ := by
  decide
